import Mathlib

/-!
Shallow embedding of `src/synopsis.py`, a terminal tool that lets a user
mark a subset of files in a directory tree, persists the selection in a
flat `.llm_info` store, and renders the selected files as one text block.

Text is modelled as `List Char` (`Str`), faithful to Python strings over
their code points.  The filesystem enumeration collaborator is modelled as
an `FSEntry` tree whose children lists carry the (arbitrary) enumeration
order returned by `os.listdir`.  The in-memory mirror built by
`Node.__init__` / `Dir.__init__` is `TNode`; Python's in-place mutation of
nodes becomes functional update at a position (a list of child indices).
-/

abbrev Str := List Char

def toL (s : String) : Str := s.toList

/-- Filesystem snapshot as seen through `os.listdir` (children in
enumeration order) and `os.path.isdir` (the constructor used). -/
inductive FSEntry : Type where
  | file (fname : Str)
  | dir (fname : Str) (children : List FSEntry)

def FSEntry.fname : FSEntry → Str
  | .file n => n
  | .dir n _ => n

/-- In-memory mirror node: Python class `Node` (files) / `Dir`
(directories, which additionally carry `children` and `expanded`). -/
inductive TNode : Type where
  | file (fname p : Str) (sel : Bool)
  | dir (fname p : Str) (sel expd : Bool) (children : List TNode)

def TNode.name : TNode → Str
  | .file n _ _ => n
  | .dir n _ _ _ _ => n

def TNode.path : TNode → Str
  | .file _ p _ => p
  | .dir _ p _ _ _ => p

def TNode.selectedB : TNode → Bool
  | .file _ _ s => s
  | .dir _ _ s _ _ => s

/-- Python `isinstance(node, Dir)`. -/
def TNode.isDir : TNode → Bool
  | .file _ _ _ => false
  | .dir _ _ _ _ _ => true

/-- The `expanded` flag; `false` on files, matching the short-circuiting
`isinstance(child, Dir) and child.expanded`. -/
def TNode.expandedD : TNode → Bool
  | .file _ _ _ => false
  | .dir _ _ _ e _ => e

def TNode.childrenL : TNode → List TNode
  | .file _ _ _ => []
  | .dir _ _ _ _ cs => cs

/-- `os.path.join(path, child)` for the relative paths the script builds:
the root passes `""`, every other join is `path ++ "/" ++ child`. -/
def joinPath (p n : Str) : Str := if p = [] then n else p ++ '/' :: n

/-- Python sort key `(not isinstance(x, Dir), x.name)` compared
lexicographically: directories (key `False`) before files, then the
case-sensitive string order on names. -/
def childLE (a b : TNode) : Prop :=
  (a.isDir = true ∧ b.isDir = false) ∨ (a.isDir = b.isDir ∧ a.name ≤ b.name)

instance : DecidableRel childLE := fun a b => by
  unfold childLE; infer_instance

instance : IsTotal TNode childLE := by
  constructor
  intro a b
  rcases ha : a.isDir <;> rcases hb : b.isDir
  · rcases le_total a.name b.name with h | h
    · exact Or.inl (Or.inr ⟨by rw [ha, hb], h⟩)
    · exact Or.inr (Or.inr ⟨by rw [ha, hb], h⟩)
  · exact Or.inr (Or.inl ⟨hb, ha⟩)
  · exact Or.inl (Or.inl ⟨ha, hb⟩)
  · rcases le_total a.name b.name with h | h
    · exact Or.inl (Or.inr ⟨by rw [ha, hb], h⟩)
    · exact Or.inr (Or.inr ⟨by rw [ha, hb], h⟩)

instance : IsTrans TNode childLE := by
  constructor
  intro a b c hab hbc
  rcases hab with ⟨ha, hb⟩ | ⟨hab, hn⟩
  · rcases hbc with ⟨hb', _⟩ | ⟨hbc, _⟩
    · rw [hb] at hb'; exact absurd hb' (by simp)
    · exact Or.inl ⟨ha, hbc ▸ hb⟩
  · rcases hbc with ⟨hb', hc⟩ | ⟨hbc, hn'⟩
    · exact Or.inl ⟨hab ▸ hb', hc⟩
    · exact Or.inr ⟨hab.trans hbc, hn.trans hn'⟩

/- `Dir.__init__`: build the mirror of an `FSEntry` at its own relative
path `p`, given the initial `selected_files` set `sel`.  Children are
built in enumeration order, then sorted directories-first/alphabetical;
`selected` and `expanded` roll up from the children exactly as in the
source (`all(...)`, `any(...)`, each conjoined with `len > 0`). -/
mutual

def buildEntry (sel : List Str) : FSEntry → Str → TNode
  | .file n, p => .file n p (decide (p ∈ sel))
  | .dir n cs, p =>
    let kids := List.insertionSort childLE (buildChildren sel cs p)
    .dir n p
      (kids.all (·.selectedB) && !kids.isEmpty)
      ((kids.any fun c => c.selectedB || (c.isDir && c.expandedD)) && !kids.isEmpty)
      kids

def buildChildren (sel : List Str) : List FSEntry → Str → List TNode
  | [], _ => []
  | c :: cs, p => buildEntry sel c (joinPath p c.fname) :: buildChildren sel cs p

end

/- `invert(node, direction=None)`: set `selected` to `direction` when
given, else flip it; a `Dir` then recursively overwrites every child with
the value just written (`invert(child, node.selected)`). -/
mutual

def invertN : Option Bool → TNode → TNode
  | d, .file n p s => .file n p (d.getD (!s))
  | d, .dir n p s e cs =>
    let s' := d.getD (!s)
    .dir n p s' e (invertL s' cs)

def invertL : Bool → List TNode → List TNode
  | _, [] => []
  | v, c :: cs => invertN (some v) c :: invertL v cs

end

/- `collect_selected(node)`: paths of selected `File` leaves, in order; a
`Dir`'s own flag is ignored (the caller wraps the list in `set(...)`,
modelled by stating results as membership). -/
mutual

def collectSelected : TNode → List Str
  | .file _ p s => if s then [p] else []
  | .dir _ _ _ _ cs => collectSelectedL cs

def collectSelectedL : List TNode → List Str
  | [] => []
  | c :: cs => collectSelected c ++ collectSelectedL cs

end

/- Specification-side helper: the paths of all `File` leaves in a subtree
(what "the set of File paths in D's subtree" denotes). -/
mutual

def filePaths : TNode → List Str
  | .file _ p _ => [p]
  | .dir _ _ _ _ cs => filePathsL cs

def filePathsL : List TNode → List Str
  | [] => []
  | c :: cs => filePaths c ++ filePathsL cs

end

/- Specification-side helper: every node of the subtree (the node itself
included) carries `selected = v`. -/
mutual

def allSelB (v : Bool) : TNode → Bool
  | .file _ _ s => s == v
  | .dir _ _ s _ cs => s == v && allSelLB v cs

def allSelLB (v : Bool) : List TNode → Bool
  | [] => true
  | c :: cs => allSelB v c && allSelLB v cs

end

/- `get_visible_nodes(node)` projected to node positions: a position is
the list of child indices from the root.  `visR t` lists the visible
positions of `t`'s subtree in pre-order: the node itself (position `[]`),
then, if it is an expanded `Dir`, the visible positions of its children.
The `(node, depth)` pairs of the source carry node references; positions
identify the same nodes uniquely, and `depth` only feeds rendering. -/
mutual

def visR : TNode → List (List Nat)
  | .file _ _ _ => [[]]
  | .dir _ _ _ e cs => [] :: (if e then visRC cs 0 else [])

def visRC : List TNode → Nat → List (List Nat)
  | [], _ => []
  | c :: cs, i => (visR c).map (fun r => i :: r) ++ visRC cs (i + 1)

end

/-- `get_visible_nodes(root, -1)[1:]`: the flattened visible list with the
hidden root dropped. -/
def visOf (t : TNode) : List (List Nat) := (visR t).drop 1

/-- Node lookup at a position (the object reference the Python list holds). -/
def nodeAt : TNode → List Nat → Option TNode
  | t, [] => some t
  | .dir _ _ _ _ cs, i :: rest =>
    match cs[i]? with
    | some c => nodeAt c rest
    | none => none
  | .file _ _ _, _ :: _ => none

/- In-place mutation of the node object at a position, as a functional
update of the tree. -/
mutual

def modifyAt : TNode → List Nat → (TNode → TNode) → TNode
  | t, [], f => f t
  | .dir n p s e cs, i :: rest, f => .dir n p s e (modifyAtL cs i rest f)
  | .file n p s, _ :: _, _ => .file n p s

def modifyAtL : List TNode → Nat → List Nat → (TNode → TNode) → List TNode
  | [], _, _, _ => []
  | c :: cs, 0, rest, f => modifyAt c rest f :: cs
  | c :: cs, i + 1, rest, f => c :: modifyAtL cs i rest f

end

/-- `node.expanded = b` on one node object (children untouched). -/
def setExpFlag (b : Bool) : TNode → TNode
  | .file n p s => .file n p s
  | .dir n p s _ cs => .dir n p s b cs

/-- First index of `a` in `l` (the Python `for i, (n, _) in enumerate(...)
... if n == node.parent: current_index = i; break` search; `none` when the
loop falls through, leaving the previously assigned `0`). -/
def findIdxOf {α : Type} [DecidableEq α] : List α → α → Option Nat
  | [], _ => none
  | x :: xs, a =>
    if x = a then some 0
    else match findIdxOf xs a with
      | some i => some (i + 1)
      | none => none

/-- State of `interactive_selector`'s loop: the tree (whose nodes the
handlers mutate), `current_index` and `window_pos`. -/
structure UIState : Type where
  tree : TNode
  ci : Nat
  wp : Nat

/-- The state-changing key events of the loop.  `q` (process exit) and
ENTER (loop exit) terminate the loop and are modelled by the event list
simply ending. -/
inductive Ev : Type where
  | up | down | left | right | toggle

/-- One iteration of the `while True` loop at terminal height `h`: the
frame recomputes `visible_list`, then dispatches on the key.  `none`
models an uncaught `IndexError` from `visible_list[current_index]`.
Guards, index arithmetic and the bubble-collapse parent search follow the
source line by line; `max 0 (...)`/truncated `Nat` subtraction agree with
the Python `int` expressions because `window_pos` is never negative. -/
def step (h : Nat) (e : Ev) (st : UIState) : Option UIState :=
  let vis := visOf st.tree
  match e with
  | .up =>
    if st.ci > 0 then
      some ⟨st.tree, st.ci - 1, max 0 (min st.wp (st.ci - 1 - 3))⟩
    else some st
  | .down =>
    if st.ci < vis.length - 1 then
      some ⟨st.tree, st.ci + 1, max 0 (max st.wp (st.ci + 1 + 5 - h))⟩
    else some st
  | .left =>
    match vis[st.ci]? with
    | none => none
    | some pos =>
      match nodeAt st.tree pos with
      | none => none
      | some node =>
        if node.isDir && node.expandedD then
          some ⟨modifyAt st.tree pos (setExpFlag false), st.ci, st.wp⟩
        else if 2 ≤ pos.length then
          -- `node.parent and node.parent.parent`: the parent exists for
          -- every visible node; the grandparent exists iff the position
          -- has length ≥ 2 (the parent is not the hidden root).
          some ⟨modifyAt st.tree pos.dropLast (setExpFlag false),
                (findIdxOf vis pos.dropLast).getD 0, st.wp⟩
        else some st
  | .right =>
    match vis[st.ci]? with
    | none => none
    | some pos =>
      match nodeAt st.tree pos with
      | none => none
      | some node =>
        if node.isDir && !node.expandedD then
          some ⟨modifyAt st.tree pos (setExpFlag true), st.ci, st.wp⟩
        else some st
  | .toggle =>
    match vis[st.ci]? with
    | none => none
    | some pos =>
      match nodeAt st.tree pos with
      | none => none
      | some _ => some ⟨modifyAt st.tree pos (invertN none), st.ci, st.wp⟩

/-- Run the loop over a list of (event, frame height) pairs. -/
def runLoop : List (Ev × Nat) → UIState → Option UIState
  | [], st => some st
  | (e, h) :: evs, st =>
    match step h e st with
    | some st' => runLoop evs st'
    | none => none

-- ------------------------- persistence codec ---------------------------

/-- Python `str.strip()` (for the whitespace actually occurring in the
store: space, tab, CR, LF). -/
def trimStr (s : Str) : Str :=
  ((s.dropWhile Char.isWhitespace).reverse.dropWhile Char.isWhitespace).reverse

/-- Iterating a text file line by line: split at `'\n'`.  (Python's lines
keep their trailing newline; `strip()` removes it, so splitting it away
here is equivalent under the `trimStr` that always follows.) -/
def splitLines : Str → List Str
  | [] => [[]]
  | c :: cs =>
    if c = '\n' then [] :: splitLines cs
    else
      match splitLines cs with
      | f :: r => (c :: f) :: r
      | [] => [[c]]

/-- Lexicographic sort used by `sorted(selected_files)`. -/
def sortStrs (l : List Str) : List Str := List.insertionSort (· ≤ ·) l

/-- Store encoder (`for path in sorted(selected_files): f.write(path + "\n")`). -/
def encodeStore (l : List Str) : Str :=
  ((sortStrs l).map (fun p => p ++ ['\n'])).flatten

/-- Store decoder (`set(line.strip() for line in f if line.strip())`),
kept as the list of lines; the `set(...)` is modelled by stating results
up to membership. -/
def decodeStore (s : Str) : List Str :=
  ((splitLines s).map trimStr).filter (fun l => l ≠ [])

/-- A valid relative path for the store: non-empty, no surrounding
whitespace, no embedded newline. -/
def ValidPath (p : Str) : Prop := p ≠ [] ∧ trimStr p = p ∧ '\n' ∉ p

instance : DecidablePred ValidPath := fun p => by
  unfold ValidPath; infer_instance

-- ---------------------- language hint (output stage) --------------------

/-- Python `str.lower()` (over the ASCII range the tables use). -/
def lowerStr (s : Str) : Str := s.map Char.toLower

/-- `os.path.basename`: the part after the last `'/'`. -/
def basenameStr (s : Str) : Str :=
  (s.reverse.takeWhile (fun c => c ≠ '/')).reverse

/-- Index of the last occurrence of `c` (Python `str.rfind`, with `none`
for `-1`). -/
def rfindChar (c : Char) : Str → Option Nat
  | [] => none
  | x :: xs =>
    match rfindChar c xs with
    | some i => some (i + 1)
    | none => if x = c then some 0 else none

/-- Extension part of `os.path.splitext` (posixpath): the suffix from the
last `'.'`, provided that dot lies after the last `'/'` and some non-dot
character stands between them (leading dots of the basename never start
an extension). -/
def splitextExt (s : Str) : Str :=
  match rfindChar '.' s with
  | none => []
  | some d =>
    let fi := match rfindChar '/' s with
      | some j => j + 1
      | none => 0
    if (match rfindChar '/' s with
        | some j => j < d
        | none => true)
       && ((s.drop fi).take (d - fi)).any (fun c => c ≠ '.')
    then s.drop d
    else []

def kv (a b : String) : Str × Str := (a.toList, b.toList)

/-- `_SPECIAL_FILENAMES`. -/
def specialFilenames : List (Str × Str) :=
  [ kv ".bash_profile" "bash", kv ".bashrc" "bash", kv ".zshrc" "bash",
    kv "berksfile" "ruby", kv "cmakelists.txt" "cmake",
    kv "dockerfile" "dockerfile", kv "gemfile" "ruby",
    kv "makefile" "makefile", kv "procfile" "yaml",
    kv "vagrantfile" "ruby" ]

/-- `_LANGUAGE_MAP`. -/
def languageMap : List (Str × Str) :=
  [ kv "bat" "bat", kv "cfg" "ini", kv "clj" "clojure",
    kv "cljs" "clojure", kv "coffee" "coffeescript", kv "conf" "ini",
    kv "cs" "csharp", kv "csx" "csharp", kv "erb" "ruby",
    kv "erl" "erlang", kv "ex" "elixir", kv "exs" "elixir",
    kv "f90" "fortran", kv "f95" "fortran", kv "groovy" "groovy",
    kv "h" "c", kv "hbs" "handlebars", kv "hpp" "cpp",
    kv "hs" "haskell", kv "ino" "cpp", kv "jl" "julia",
    kv "js" "javascript", kv "kt" "kotlin", kv "kts" "kotlin",
    kv "log" "", kv "md" "markdown", kv "mjs" "javascript",
    kv "mm" "objective-c++", kv "pl" "perl", kv "pm" "perl",
    kv "ps1" "powershell", kv "psm1" "powershell", kv "py" "python",
    kv "pyi" "python", kv "pyw" "python", kv "rb" "ruby",
    kv "rs" "rust", kv "sh" "bash", kv "sv" "systemverilog",
    kv "svh" "systemverilog", kv "tex" "latex", kv "ts" "typescript",
    kv "txt" "", kv "v" "verilog", kv "vhd" "vhdl", kv "zsh" "bash" ]

/-- Association-list lookup (`dict.__contains__` / `dict.get`). -/
def dictFind (d : List (Str × Str)) (k : Str) : Option Str :=
  match d with
  | [] => none
  | (k', v) :: rest => if k' = k then some v else dictFind rest k

/-- `get_language_hint(filename)`: special filenames first, then the
extension table with the extension itself as the `dict.get` default. -/
def getLanguageHint (filename : Str) : Str :=
  let bn := basenameStr (lowerStr filename)
  match dictFind specialFilenames bn with
  | some v => v
  | none =>
    let extn := (splitextExt (lowerStr filename)).dropWhile (fun c => c = '.')
    match dictFind languageMap extn with
    | some v => v
    | none => extn

-- --------------------------- output assembler ---------------------------

/-- Python `str.replace(pat, repl)` for a non-empty pattern. -/
def replaceSub (pat repl : Str) : Str → Str
  | [] => []
  | c :: cs =>
    if h : pat ≠ [] && pat.isPrefixOf (c :: cs) then
      repl ++ replaceSub pat repl ((c :: cs).drop pat.length)
    else c :: replaceSub pat repl cs
termination_by s => s.length
decreasing_by
  · have hp : 0 < pat.length := by
      simp at h
      cases pat with
      | nil => exact absurd rfl h.1
      | cons a l => simp
    simp [List.length_drop]
    omega
  · simp

/-- Per-file content: the `try` body (CRLF-normalisation, fence escaping,
strip) on success, the `[Error reading file: ...]` placeholder on any read
failure.  The reading collaborator is `readF`. -/
def contentFor (readF : Str → Except Str Str) (p : Str) : Str :=
  match readF p with
  | .ok c =>
    trimStr (replaceSub (toL "\n```") (toL "\n\\`\\`\\`")
      ('\n' :: replaceSub (toL "\r\n") (toL "\n") c))
  | .error e => toL "[Error reading file: " ++ e ++ toL "]"

/-- The three lines appended for one selected path. -/
def entryFor (readF : Str → Except Str Str) (p : Str) : List Str :=
  [ '\n' :: p,
    toL "```" ++ getLanguageHint p ++ '\n' :: contentFor readF p ++ '\n' :: toL "```",
    [] ]

/-- `output_lines`: optional `<project>` tag, optional project-structure
block (skipped when the collaborator yielded nothing or an empty string),
then `"Relevant files:"` followed by one entry per selected path in
sorted order. -/
def outputLines (tag : Bool) (proj : Option Str)
    (readF : Str → Except Str Str) (sel : List Str) : List Str :=
  (if tag then [toL "<project>"] else []) ++
  (match proj with
   | some ps =>
     if ps = [] then []
     else [toL "Project structure:", toL "```", ps, toL "```", []]
   | none => []) ++
  [toL "Relevant files:"] ++
  (sortStrs sel).flatMap (entryFor readF) ++
  (if tag then [toL "</project>"] else [])

-- ------------------- induction and decidable equality -------------------

/-- Structural induction for the nested inductive `TNode`. -/
theorem TNode.indOn {P : TNode → Prop}
    (hf : ∀ n p s, P (.file n p s))
    (hd : ∀ n p s e cs, (∀ c ∈ cs, P c) → P (.dir n p s e cs)) :
    ∀ t, P t
  | .file n p s => hf n p s
  | .dir n p s e cs =>
    hd n p s e cs (fun c hc =>
      have : sizeOf c < sizeOf (TNode.dir n p s e cs) := by
        have h1 := List.sizeOf_lt_of_mem hc
        simp only [TNode.dir.sizeOf_spec]
        omega
      TNode.indOn hf hd c)
termination_by t => sizeOf t

/-- Structural induction for the nested inductive `FSEntry`. -/
theorem fsEntryIndOn {P : FSEntry → Prop}
    (hf : ∀ n, P (.file n))
    (hd : ∀ n cs, (∀ c ∈ cs, P c) → P (.dir n cs)) :
    ∀ t, P t
  | .file n => hf n
  | .dir n cs =>
    hd n cs (fun c hc =>
      have : sizeOf c < sizeOf (FSEntry.dir n cs) := by
        have h1 := List.sizeOf_lt_of_mem hc
        simp only [FSEntry.dir.sizeOf_spec]
        omega
      fsEntryIndOn hf hd c)
termination_by t => sizeOf t

mutual

def TNode.beq : TNode → TNode → Bool
  | .file n p s, .file n' p' s' => n == n' && p == p' && s == s'
  | .dir n p s e cs, .dir n' p' s' e' cs' =>
    n == n' && p == p' && s == s' && e == e' && TNode.beqList cs cs'
  | _, _ => false

def TNode.beqList : List TNode → List TNode → Bool
  | [], [] => true
  | c :: cs, d :: ds => TNode.beq c d && TNode.beqList cs ds
  | _, _ => false

end

mutual

theorem TNode.beq_iff : ∀ a b : TNode, TNode.beq a b = true ↔ a = b
  | .file _ _ _, .file _ _ _ => by
    simp [TNode.beq, and_assoc]
  | .file _ _ _, .dir _ _ _ _ _ => by
    simp [TNode.beq]
  | .dir _ _ _ _ _, .file _ _ _ => by
    simp [TNode.beq]
  | .dir n p s e cs, .dir n' p' s' e' cs' => by
    simp [TNode.beq, TNode.beqList_iff cs cs', and_assoc]

theorem TNode.beqList_iff : ∀ a b : List TNode, TNode.beqList a b = true ↔ a = b
  | [], [] => by simp [TNode.beqList]
  | [], _ :: _ => by simp [TNode.beqList]
  | _ :: _, [] => by simp [TNode.beqList]
  | c :: cs, d :: ds => by
    simp [TNode.beqList, TNode.beq_iff c d, TNode.beqList_iff cs ds]

end

instance : DecidableEq TNode := fun a b => decidable_of_iff _ (TNode.beq_iff a b)

mutual

def FSEntry.beq : FSEntry → FSEntry → Bool
  | .file n, .file n' => n == n'
  | .dir n cs, .dir n' cs' => n == n' && FSEntry.beqList cs cs'
  | _, _ => false

def FSEntry.beqList : List FSEntry → List FSEntry → Bool
  | [], [] => true
  | c :: cs, d :: ds => FSEntry.beq c d && FSEntry.beqList cs ds
  | _, _ => false

end

mutual

theorem fsEntryBeq_iff : ∀ a b : FSEntry, FSEntry.beq a b = true ↔ a = b
  | .file _, .file _ => by simp [FSEntry.beq]
  | .file _, .dir _ _ => by simp [FSEntry.beq]
  | .dir _ _, .file _ => by simp [FSEntry.beq]
  | .dir n cs, .dir n' cs' => by
    simp [FSEntry.beq, fsEntryBeqList_iff cs cs']

theorem fsEntryBeqList_iff : ∀ a b : List FSEntry, FSEntry.beqList a b = true ↔ a = b
  | [], [] => by simp [FSEntry.beqList]
  | [], _ :: _ => by simp [FSEntry.beqList]
  | _ :: _, [] => by simp [FSEntry.beqList]
  | c :: cs, d :: ds => by
    simp [FSEntry.beqList, fsEntryBeq_iff c d, fsEntryBeqList_iff cs ds]

end

instance : DecidableEq FSEntry := fun a b => decidable_of_iff _ (fsEntryBeq_iff a b)

/- All nodes of a subtree, the node itself first (specification-side
helper used to quantify over every directory of a built tree). -/
mutual

def subNodes : TNode → List TNode
  | .file n p s => [.file n p s]
  | .dir n p s e cs => .dir n p s e cs :: subNodesL cs

def subNodesL : List TNode → List TNode
  | [] => []
  | c :: cs => subNodes c ++ subNodesL cs

end

-- ----------------------------- bridge lemmas ----------------------------

theorem buildChildren_eq_map (sel : List Str) (cs : List FSEntry) (p : Str) :
    buildChildren sel cs p = cs.map (fun c => buildEntry sel c (joinPath p c.fname)) := by
  induction cs with
  | nil => rfl
  | cons c cs ih => simp [buildChildren, ih]

theorem invertL_eq_map (v : Bool) (cs : List TNode) :
    invertL v cs = cs.map (invertN (some v)) := by
  induction cs with
  | nil => rfl
  | cons c cs ih => simp [invertL, ih]

theorem collectSelectedL_eq (l : List TNode) :
    collectSelectedL l = (l.map collectSelected).flatten := by
  induction l with
  | nil => rfl
  | cons c cs ih => simp [collectSelectedL, ih]

theorem filePathsL_eq (l : List TNode) :
    filePathsL l = (l.map filePaths).flatten := by
  induction l with
  | nil => rfl
  | cons c cs ih => simp [filePathsL, ih]

theorem allSelLB_eq (v : Bool) (l : List TNode) :
    allSelLB v l = l.all (allSelB v) := by
  induction l with
  | nil => rfl
  | cons c cs ih => simp [allSelLB, ih]

theorem subNodesL_eq (l : List TNode) :
    subNodesL l = (l.map subNodes).flatten := by
  induction l with
  | nil => rfl
  | cons c cs ih => simp [subNodesL, ih]

theorem mem_subNodesL {d : TNode} {l : List TNode} :
    d ∈ subNodesL l ↔ ∃ c ∈ l, d ∈ subNodes c := by
  simp [subNodesL_eq]

theorem subNodes_self (t : TNode) : t ∈ subNodes t := by
  cases t <;> simp [subNodes]

-- ------------------- C1 / C3: construction roll-ups ----------------------

theorem buildEntry_dir_eq (sel : List Str) (n : Str) (cs : List FSEntry) (p : Str) :
    buildEntry sel (.dir n cs) p =
      .dir n p
        ((List.insertionSort childLE (buildChildren sel cs p)).all (·.selectedB) &&
          !(List.insertionSort childLE (buildChildren sel cs p)).isEmpty)
        (((List.insertionSort childLE (buildChildren sel cs p)).any fun c =>
            c.selectedB || (c.isDir && c.expandedD)) &&
          !(List.insertionSort childLE (buildChildren sel cs p)).isEmpty)
        (List.insertionSort childLE (buildChildren sel cs p)) := rfl

/-- Both initial-state roll-up facts at once, for every directory of the
built tree: `selected` is the `all` of the children, `expanded` the `any`
of child-selected-or-expanded-subdirectory, each conjoined with the
children being non-empty. -/
theorem buildEntry_rollup (sel : List Str) (fs : FSEntry) :
    ∀ (p : Str), ∀ d ∈ subNodes (buildEntry sel fs p),
      d.isDir = true →
      ((d.selectedB = true ↔ (d.childrenL ≠ [] ∧ ∀ c ∈ d.childrenL, c.selectedB = true))
       ∧ (d.expandedD = true ↔ (d.childrenL ≠ [] ∧ ∃ c ∈ d.childrenL,
            c.selectedB = true ∨ (c.isDir = true ∧ c.expandedD = true)))) := by
  induction fs using fsEntryIndOn with
  | hf n =>
    intro p d hd hdir
    simp only [buildEntry, subNodes, List.mem_singleton] at hd
    subst hd
    simp [TNode.isDir] at hdir
  | hd n cs ih =>
    intro p d hd hdir
    rw [buildEntry_dir_eq, subNodes] at hd
    rcases List.mem_cons.mp hd with hd | hd
    · subst hd
      constructor
      · simp only [TNode.selectedB, TNode.childrenL, Bool.and_eq_true, List.all_eq_true,
          Bool.not_eq_true', List.isEmpty_eq_false]
        tauto
      · simp only [TNode.expandedD, TNode.childrenL, Bool.and_eq_true, List.any_eq_true,
          Bool.not_eq_true', List.isEmpty_eq_false, Bool.or_eq_true]
        constructor
        · rintro ⟨h1, h2⟩; exact ⟨h2, h1⟩
        · rintro ⟨h1, h2⟩; exact ⟨h2, h1⟩
    · rcases mem_subNodesL.mp hd with ⟨c, hc, hdc⟩
      rw [List.mem_insertionSort, buildChildren_eq_map, List.mem_map] at hc
      rcases hc with ⟨entry, hentry, rfl⟩
      exact ih entry hentry (joinPath p entry.fname) d hdc hdir

/-- C1: after construction from an initial selected-path set, every
directory's `selected` flag is `true` exactly when it has at least one
child and all children are `selected`; in particular a childless
directory is never selected. -/
theorem initial_selected_rollup (sel : List Str) (fs : FSEntry) (p : Str) :
    ∀ d ∈ subNodes (buildEntry sel fs p), d.isDir = true →
      (d.selectedB = true ↔ (d.childrenL ≠ [] ∧ ∀ c ∈ d.childrenL, c.selectedB = true)) :=
  fun d hd hdir => (buildEntry_rollup sel fs p d hd hdir).1

/-- Witness for C1 at a concrete tree: a directory holding the single
selected file `a` is selected after construction. -/
theorem initial_selected_rollup_witness :
    (buildEntry [toL "a"] (.dir (toL "r") [.file (toL "a")]) []).selectedB = true := by
  have h := initial_selected_rollup [toL "a"] (.dir (toL "r") [.file (toL "a")]) []
      (buildEntry [toL "a"] (.dir (toL "r") [.file (toL "a")]) [])
      (subNodes_self _) (by decide)
  exact h.mpr (by decide)

/-- C3: after construction, a directory starts `expanded` exactly when it
has at least one child and some child is selected or is an expanded
subdirectory; a childless directory never starts expanded. -/
theorem initial_expanded_rollup (sel : List Str) (fs : FSEntry) (p : Str) :
    ∀ d ∈ subNodes (buildEntry sel fs p), d.isDir = true →
      (d.expandedD = true ↔ (d.childrenL ≠ [] ∧ ∃ c ∈ d.childrenL,
        c.selectedB = true ∨ (c.isDir = true ∧ c.expandedD = true))) :=
  fun d hd hdir => (buildEntry_rollup sel fs p d hd hdir).2

/-- Witness for C3 at a concrete tree: a directory with one selected file
child `a` and one unselected file child `b` starts expanded. -/
theorem initial_expanded_rollup_witness :
    (buildEntry [toL "a"] (.dir (toL "r") [.file (toL "a"), .file (toL "b")]) []).expandedD
      = true := by
  have h := initial_expanded_rollup [toL "a"]
      (.dir (toL "r") [.file (toL "a"), .file (toL "b")]) []
      (buildEntry [toL "a"] (.dir (toL "r") [.file (toL "a"), .file (toL "b")]) [])
      (subNodes_self _) (by decide)
  exact h.mpr (by decide)

-- ------------------------ C2: toggle propagation -------------------------

theorem invertN_file (d : Option Bool) (n p : Str) (s : Bool) :
    invertN d (.file n p s) = .file n p (d.getD (!s)) := rfl

theorem invertN_dir (d : Option Bool) (n p : Str) (s e : Bool) (cs : List TNode) :
    invertN d (.dir n p s e cs) =
      .dir n p (d.getD (!s)) e (invertL (d.getD (!s)) cs) := rfl

theorem invertN_selectedB (t : TNode) :
    (invertN none t).selectedB = !t.selectedB := by
  cases t <;> rfl

theorem allSelB_selectedB {v : Bool} {t : TNode} (h : allSelB v t = true) :
    t.selectedB = v := by
  cases t with
  | file n p s => simpa [allSelB, TNode.selectedB] using h
  | dir n p s e cs =>
    simp only [allSelB, Bool.and_eq_true, beq_iff_eq] at h
    simpa [TNode.selectedB] using h.1

theorem invertN_sets_all (v : Bool) (t : TNode) :
    allSelB v (invertN (some v) t) = true := by
  induction t using TNode.indOn with
  | hf n p s => simp [invertN_file, allSelB]
  | hd n p s e cs ih =>
    simp only [invertN_dir, Option.getD_some, allSelB, invertL_eq_map,
      allSelLB_eq, Bool.and_eq_true, beq_self_eq_true, true_and,
      List.all_eq_true, List.mem_map]
    rintro _ ⟨c, hc, rfl⟩
    exact ih c hc

theorem filePaths_invertN (d : Option Bool) (t : TNode) :
    filePaths (invertN d t) = filePaths t := by
  induction t using TNode.indOn generalizing d with
  | hf n p s => rfl
  | hd n p s e cs ih =>
    simp only [invertN_dir, filePaths, invertL_eq_map, filePathsL_eq,
      List.map_map]
    congr 1
    exact List.map_congr_left fun c hc => ih c hc _

theorem collectSelected_of_allSel {t : TNode} (h : allSelB true t = true) :
    collectSelected t = filePaths t := by
  induction t using TNode.indOn with
  | hf n p s =>
    simp only [allSelB, beq_iff_eq] at h
    simp [collectSelected, filePaths, h]
  | hd n p s e cs ih =>
    simp only [allSelB, Bool.and_eq_true, allSelLB_eq, List.all_eq_true] at h
    simp only [collectSelected, filePaths, collectSelectedL_eq, filePathsL_eq]
    congr 1
    exact List.map_congr_left fun c hc => ih c hc (h.2 c hc)

/-- C2: `invert` with no direction flips the node's `selected`; on a
directory it overwrites every node of the subtree with the new value, and
collecting the selection after toggling an entirely-unselected directory
yields exactly the file paths of its subtree (as sets). -/
theorem toggle_propagation (t : TNode) :
    ((invertN none t).selectedB = !t.selectedB)
    ∧ (t.isDir = true → allSelB (!t.selectedB) (invertN none t) = true)
    ∧ (t.isDir = true → allSelB false t = true →
        ∀ x : Str, x ∈ collectSelected (invertN none t) ↔ x ∈ filePaths t) := by
  refine ⟨invertN_selectedB t, fun _ => ?_, fun _ hall x => ?_⟩
  · cases t with
    | file n p s => simp [invertN_file, allSelB, TNode.selectedB]
    | dir n p s e cs =>
      have := invertN_sets_all (!s) (.dir n p s e cs)
      simpa [invertN_dir, TNode.selectedB] using this
  · have hsel : t.selectedB = false := allSelB_selectedB hall
    have h1 : allSelB true (invertN none t) = true := by
      cases t with
      | file n p s =>
        simp [TNode.selectedB] at hsel
        simp [invertN_file, allSelB, hsel]
      | dir n p s e cs =>
        simp [TNode.selectedB] at hsel
        subst hsel
        exact invertN_sets_all true (.dir n p false e cs)
    rw [collectSelected_of_allSel h1, filePaths_invertN]

/-- Witness for C2: toggling the unselected directory `d` containing the
single unselected file `d/a` makes collection return that file's path. -/
theorem toggle_propagation_witness :
    toL "d/a" ∈ collectSelected (invertN none
      (.dir (toL "d") (toL "d") false false
        [.file (toL "a") (toL "d/a") false])) :=
  ((toggle_propagation
      (.dir (toL "d") (toL "d") false false
        [.file (toL "a") (toL "d/a") false])).2.2
    (by decide) (by decide) (toL "d/a")).mpr (by decide)

-- ------------------------ C4: store round-trip ---------------------------

theorem splitLines_append_newline (p rest : Str) (h : '\n' ∉ p) :
    splitLines (p ++ '\n' :: rest) = p :: splitLines rest := by
  induction p with
  | nil => simp [splitLines]
  | cons c cs ih =>
    have hc : ¬ c = '\n' := fun hcc => h (hcc ▸ List.mem_cons_self c cs)
    have hcs : '\n' ∉ cs := fun hmem => h (List.mem_cons_of_mem c hmem)
    simp only [List.cons_append, splitLines, if_neg hc, List.append_eq]
    rw [ih hcs]

theorem splitLines_flatten (ps : List Str) (h : ∀ p ∈ ps, '\n' ∉ p) :
    splitLines ((ps.map (fun p => p ++ ['\n'])).flatten) = ps ++ [[]] := by
  induction ps with
  | nil => rfl
  | cons p ps ih =>
    have h1 : '\n' ∉ p := h p (List.mem_cons_self p ps)
    have h2 : ∀ q ∈ ps, '\n' ∉ q := fun q hq => h q (List.mem_cons_of_mem p hq)
    simp only [List.map_cons, List.flatten_cons, List.append_assoc,
      List.singleton_append, splitLines_append_newline p _ h1, ih h2,
      List.cons_append, List.nil_append]

theorem decode_encode_eq_sort (l : List Str) (hv : ∀ p ∈ l, ValidPath p) :
    decodeStore (encodeStore l) = sortStrs l := by
  have hs : ∀ p ∈ sortStrs l, ValidPath p := by
    intro p hp
    exact hv p ((List.perm_insertionSort _ l).mem_iff.mp hp)
  unfold decodeStore encodeStore
  rw [splitLines_flatten _ (fun p hp => (hs p hp).2.2)]
  rw [List.map_append, List.filter_append]
  have htrim : (sortStrs l).map trimStr = sortStrs l := by
    conv_rhs => rw [show sortStrs l = (sortStrs l).map id from (List.map_id _).symm]
    exact List.map_congr_left fun p hp => (hs p hp).2.1
  rw [htrim]
  have h2 : List.filter (fun q => decide (q ≠ [])) (List.map trimStr [[]]) = [] := rfl
  rw [h2, List.append_nil]
  exact List.filter_eq_self.mpr fun p hp => by
    simpa using (hs p hp).1

/-- C4: decoding the encoded store of a list of valid relative paths gives
back exactly the same set of paths (membership in the decoded line list
coincides with membership in the input). -/
theorem store_roundtrip (l : List Str) (hv : ∀ p ∈ l, ValidPath p) :
    ∀ x : Str, x ∈ decodeStore (encodeStore l) ↔ x ∈ l := by
  intro x
  rw [decode_encode_eq_sort l hv]
  exact (List.perm_insertionSort _ l).mem_iff

/-- Witness for C4 on a concrete store: `["b", "a"]` survives the
encode/decode round trip. -/
theorem store_roundtrip_witness :
    toL "a" ∈ decodeStore (encodeStore [toL "b", toL "a"]) :=
  (store_roundtrip [toL "b", toL "a"] (by decide) (toL "a")).mpr (by decide)

-- --------------------- C9: assembler error tolerance ---------------------

theorem flatMap_two_at {α β : Type} (g : α → List β) (l : List α) (p : α)
    (hp : p ∈ l) (a b : β) (hab : ∃ rest, g p = a :: b :: rest) :
    ∃ i, (l.flatMap g)[i]? = some a ∧ (l.flatMap g)[i+1]? = some b := by
  induction l with
  | nil => cases hp
  | cons q l ih =>
    rcases List.mem_cons.mp hp with rfl | hp'
    · rcases hab with ⟨rest, hg⟩
      refine ⟨0, ?_, ?_⟩ <;> simp [List.flatMap_cons, hg]
    · rcases ih hp' with ⟨i, h1, h2⟩
      refine ⟨(g q).length + i, ?_, ?_⟩
      · rw [List.flatMap_cons, List.getElem?_append_right (by omega)]
        simpa using h1
      · rw [List.flatMap_cons, List.getElem?_append_right (by omega)]
        have : (g q).length + i + 1 - (g q).length = i + 1 := by omega
        rw [this]
        exact h2

theorem getElem?_append_left_of_some {α : Type} {xs ys : List α} {i : Nat} {a : α}
    (h : xs[i]? = some a) : (xs ++ ys)[i]? = some a := by
  have hi : i < xs.length := by
    rcases List.getElem?_eq_some.mp h with ⟨hlt, _⟩
    exact hlt
  rw [List.getElem?_append, if_pos hi]
  exact h

theorem getElem?_append_shift {α : Type} {xs ys : List α} {i : Nat} {a : α}
    (h : ys[i]? = some a) : (xs ++ ys)[xs.length + i]? = some a := by
  rw [List.getElem?_append_right (by omega)]
  simpa using h

theorem exists_two_at_append {α : Type} (pre mid post : List α) {a b : α}
    (h : ∃ i, mid[i]? = some a ∧ mid[i + 1]? = some b) :
    ∃ j, (pre ++ mid ++ post)[j]? = some a ∧ (pre ++ mid ++ post)[j + 1]? = some b := by
  rcases h with ⟨i, h1, h2⟩
  refine ⟨pre.length + i, ?_, ?_⟩
  · rw [List.append_assoc]
    exact getElem?_append_shift (getElem?_append_left_of_some h1)
  · rw [List.append_assoc, Nat.add_assoc]
    exact getElem?_append_shift (getElem?_append_left_of_some h2)

theorem outputLines_split (tag : Bool) (proj : Option Str)
    (readF : Str → Except Str Str) (sel : List Str) :
    outputLines tag proj readF sel =
      ((if tag then [toL "<project>"] else []) ++
       ((match proj with
         | some ps =>
           if ps = [] then []
           else [toL "Project structure:", toL "```", ps, toL "```", []]
         | none => []) ++ [toL "Relevant files:"])) ++
      (sortStrs sel).flatMap (entryFor readF) ++
      (if tag then [toL "</project>"] else []) := by
  unfold outputLines
  simp [List.append_assoc]

/-- C9: for every selected path, the assembled output contains that
path's heading line immediately followed by its fenced content block —
so one unreadable file never suppresses the other entries — and when the
read collaborator fails the content block carries the
`[Error reading file: ...]` placeholder instead of aborting. -/
theorem assembler_error_tolerant (tag : Bool) (proj : Option Str)
    (readF : Str → Except Str Str) (sel : List Str) (p : Str) (hp : p ∈ sel) :
    (∃ i, (outputLines tag proj readF sel)[i]? = some ('\n' :: p)
        ∧ (outputLines tag proj readF sel)[i + 1]?
            = some (toL "```" ++ getLanguageHint p ++ '\n' :: contentFor readF p
                      ++ '\n' :: toL "```"))
    ∧ (∀ e : Str, readF p = .error e →
        contentFor readF p = toL "[Error reading file: " ++ e ++ toL "]") := by
  constructor
  · have hmem : p ∈ sortStrs sel := (List.mem_insertionSort _).mpr hp
    rcases flatMap_two_at (entryFor readF) (sortStrs sel) p hmem _ _ ⟨[[]], rfl⟩
      with ⟨i, h1, h2⟩
    rw [outputLines_split]
    exact exists_two_at_append _ _ _ ⟨i, h1, h2⟩
  · intro e he
    unfold contentFor
    rw [he]

/-- Witness for C9: one selected file `a` whose read fails with `gone`
still gets its heading and a placeholder content block. -/
theorem assembler_error_tolerant_witness :
    (∃ i, (outputLines false none (fun _ => Except.error (toL "gone")) [toL "a"])[i]?
            = some ('\n' :: toL "a")
        ∧ (outputLines false none (fun _ => Except.error (toL "gone")) [toL "a"])[i + 1]?
            = some (toL "```" ++ getLanguageHint (toL "a") ++ '\n' ::
                contentFor (fun _ => Except.error (toL "gone")) (toL "a")
                  ++ '\n' :: toL "```"))
    ∧ (∀ e : Str,
        (fun _ => Except.error (toL "gone") : Str → Except Str Str) (toL "a")
          = .error e →
        contentFor (fun _ => Except.error (toL "gone")) (toL "a")
          = toL "[Error reading file: " ++ e ++ toL "]") :=
  assembler_error_tolerant false none (fun _ => Except.error (toL "gone"))
    [toL "a"] (toL "a") (by decide)

-- --------------------- C10: language hint fallback ----------------------

/-- C10 counterexample: `foo.bar` has no special-filename entry and no
known extension, yet the language hint is `bar`, not the empty string the
claim demands. -/
theorem language_hint_counterexample :
    dictFind specialFilenames (basenameStr (lowerStr (toL "foo.bar"))) = none
    ∧ dictFind languageMap
        ((splitextExt (lowerStr (toL "foo.bar"))).dropWhile (fun c => c = '.')) = none
    ∧ getLanguageHint (toL "foo.bar") = toL "bar"
    ∧ toL "bar" ≠ [] := by decide

/-- C10 (amended): the hint lookup is a pure function; when the filename
has no special-filename entry and its extension has no language-table
entry, the hint is the (lower-cased) extension itself — so it is empty
exactly when the filename has no extension, not for every unknown name. -/
theorem language_hint_fallback (fn : Str)
    (h1 : dictFind specialFilenames (basenameStr (lowerStr fn)) = none)
    (h2 : dictFind languageMap
        ((splitextExt (lowerStr fn)).dropWhile (fun c => c = '.')) = none) :
    getLanguageHint fn
      = (splitextExt (lowerStr fn)).dropWhile (fun c => c = '.') := by
  unfold getLanguageHint
  simp only []
  rw [h1, h2]

/-- Witness for C10's amended statement at `foo.bar`. -/
theorem language_hint_fallback_witness :
    getLanguageHint (toL "foo.bar")
      = (splitextExt (lowerStr (toL "foo.bar"))).dropWhile (fun c => c = '.') :=
  language_hint_fallback (toL "foo.bar") (by decide) (by decide)

-- ------------------ C7: expand event and childless dirs ------------------

/-- C7 counterexample: the right-arrow handler guards only on
`isinstance(node, Dir) and not node.expanded` — it has no zero-children
check, so one expand event on a childless collapsed directory sets its
`expanded` flag to `true`. -/
theorem expand_childless_counterexample :
    (nodeAt (.dir (toL "r") [] false true [.dir (toL "d") (toL "d") false false []])
        [0]).map TNode.childrenL = some []
    ∧ (step 20 .right
        ⟨.dir (toL "r") [] false true [.dir (toL "d") (toL "d") false false []],
          0, 0⟩).map
        (fun st => (nodeAt st.tree [0]).map TNode.expandedD) = some (some true) := by
  decide

/-- C7 (amended): the expand event sets `expanded := true` on any
not-yet-expanded directory under the cursor regardless of its children
count, is a no-op on a `File` and on an already-expanded directory, and a
childless directory's `expanded` flag is `false` at initialization (but
an expand event can later set it to `true`). -/
theorem expand_event_spec (h : Nat) (st : UIState) (pos : List Nat) (node : TNode)
    (hpos : (visOf st.tree)[st.ci]? = some pos)
    (hnode : nodeAt st.tree pos = some node) :
    (node.isDir = true → node.expandedD = false →
       step h .right st = some ⟨modifyAt st.tree pos (setExpFlag true), st.ci, st.wp⟩)
    ∧ ((node.isDir = false ∨ node.expandedD = true) → step h .right st = some st)
    ∧ (∀ (sel : List Str) (n p : Str), (buildEntry sel (.dir n []) p).expandedD = false) := by
  refine ⟨fun hd he => ?_, fun hcase => ?_, fun sel n p => rfl⟩
  · simp only [step, hpos, hnode, hd, he]
    rfl
  · simp only [step, hpos, hnode]
    rcases hcase with hd | he
    · simp [hd]
    · simp [he]

/-- Witness for C7's amended statement: an expand event with the cursor on
a file leaves the state unchanged. -/
theorem expand_event_spec_witness :
    step 20 .right
        ⟨.dir (toL "r") [] false true [.file (toL "a") (toL "a") false], 0, 0⟩
      = some ⟨.dir (toL "r") [] false true [.file (toL "a") (toL "a") false], 0, 0⟩ :=
  (expand_event_spec 20
      ⟨.dir (toL "r") [] false true [.file (toL "a") (toL "a") false], 0, 0⟩
      [0] (.file (toL "a") (toL "a") false) (by decide) (by decide)).2.1
    (Or.inl (by decide))

-- ------------- C5: child ordering and enumeration independence -----------

def FSEntry.isDir : FSEntry → Bool
  | .file _ => false
  | .dir _ _ => true

/-- The same directories-first/alphabetical key order on raw filesystem
entries (specification-side, used only to express "the same names"). -/
def fsLE (a b : FSEntry) : Prop :=
  (a.isDir = true ∧ b.isDir = false) ∨ (a.isDir = b.isDir ∧ a.fname ≤ b.fname)

instance : DecidableRel fsLE := fun a b => by
  unfold fsLE; infer_instance

/- Specification-side canonical form of a filesystem snapshot: children
recursively sorted by the key order.  Two snapshots enumerate the same
names and shapes in possibly different orders iff their canonical forms
are equal. -/
mutual

def canonFS : FSEntry → FSEntry
  | .file n => .file n
  | .dir n cs => .dir n (List.insertionSort fsLE (canonL cs))

def canonL : List FSEntry → List FSEntry
  | [] => []
  | c :: cs => canonFS c :: canonL cs

end

/- `os.listdir` returns pairwise-distinct names; this predicate states it
for every directory of the snapshot. -/
mutual

def namesOKB : FSEntry → Bool
  | .file _ => true
  | .dir _ cs => decide ((cs.map FSEntry.fname).Nodup) && namesOKL cs

def namesOKL : List FSEntry → Bool
  | [] => true
  | c :: cs => namesOKB c && namesOKL cs

end

theorem canonL_eq_map (cs : List FSEntry) : canonL cs = cs.map canonFS := by
  induction cs with
  | nil => rfl
  | cons c cs ih => simp [canonL, ih]

theorem namesOKL_eq (cs : List FSEntry) : namesOKL cs = cs.all namesOKB := by
  induction cs with
  | nil => rfl
  | cons c cs ih => simp [namesOKL, ih]

theorem canonFS_fname (c : FSEntry) : (canonFS c).fname = c.fname := by
  cases c <;> rfl

theorem buildEntry_name (sel : List Str) (c : FSEntry) (p : Str) :
    (buildEntry sel c p).name = c.fname := by
  cases c <;> rfl

/-- Strict version of the child key order. -/
def childLT (a b : TNode) : Prop :=
  (a.isDir = true ∧ b.isDir = false) ∨ (a.isDir = b.isDir ∧ a.name < b.name)

instance : IsAntisymm TNode childLT := by
  constructor
  intro a b hab hba
  exfalso
  rcases hab with ⟨ha, hb⟩ | ⟨hk, hn⟩
  · rcases hba with ⟨ha', hb'⟩ | ⟨hk', _⟩
    · rw [ha] at hb'; cases hb'
    · rw [ha, hb] at hk'; cases hk'
  · rcases hba with ⟨ha', hb'⟩ | ⟨_, hn'⟩
    · rw [ha'] at hk; rw [hb'] at hk; cases hk
    · exact absurd (hn.trans hn') (lt_irrefl _)

theorem childLE_strict {a b : TNode} (hle : childLE a b) (hne : a.name ≠ b.name) :
    childLT a b := by
  rcases hle with h | ⟨hk, hn⟩
  · exact Or.inl h
  · exact Or.inr ⟨hk, lt_of_le_of_ne hn hne⟩

theorem insertionSort_childLE_eq_of_perm {l₁ l₂ : List TNode} (hp : l₁.Perm l₂)
    (hn : (l₁.map TNode.name).Nodup) :
    List.insertionSort childLE l₁ = List.insertionSort childLE l₂ := by
  have hperm : (List.insertionSort childLE l₁).Perm (List.insertionSort childLE l₂) :=
    ((List.perm_insertionSort childLE l₁).trans hp).trans
      (List.perm_insertionSort childLE l₂).symm
  have strict : ∀ l : List TNode, (l.map TNode.name).Nodup →
      List.Sorted childLE (List.insertionSort childLE l) →
      List.Sorted childLT (List.insertionSort childLE l) := by
    intro l hnd hs
    have hnd' : ((List.insertionSort childLE l).map TNode.name).Nodup :=
      ((List.perm_insertionSort childLE l).map TNode.name).nodup_iff.mpr hnd
    have hpw : (List.insertionSort childLE l).Pairwise
        (fun a b => TNode.name a ≠ TNode.name b) :=
      List.pairwise_map.mp hnd'
    exact (hs.and hpw).imp fun hab => childLE_strict hab.1 hab.2
  have hn₂ : (l₂.map TNode.name).Nodup := (hp.map TNode.name).nodup_iff.mp hn
  exact List.eq_of_perm_of_sorted hperm
    (strict l₁ hn (List.sorted_insertionSort childLE l₁))
    (strict l₂ hn₂ (List.sorted_insertionSort childLE l₂))

theorem buildEntry_canon (sel : List Str) (fs : FSEntry) :
    namesOKB fs = true → ∀ p : Str,
      buildEntry sel fs p = buildEntry sel (canonFS fs) p := by
  induction fs using fsEntryIndOn with
  | hf n => intro _ p; rfl
  | hd n cs ih =>
    intro hok p
    simp only [namesOKB, Bool.and_eq_true, decide_eq_true_eq, namesOKL_eq,
      List.all_eq_true] at hok
    have hmapeq : ∀ c ∈ cs,
        buildEntry sel (canonFS c) (joinPath p c.fname)
          = buildEntry sel c (joinPath p c.fname) :=
      fun c hc => (ih c hc (hok.2 c hc) (joinPath p c.fname)).symm
    have hL₁ : buildChildren sel cs p
        = cs.map (fun c => buildEntry sel c (joinPath p c.fname)) :=
      buildChildren_eq_map sel cs p
    have hL₂perm : (buildChildren sel (List.insertionSort fsLE (canonL cs)) p).Perm
        (cs.map (fun c => buildEntry sel c (joinPath p c.fname))) := by
      rw [buildChildren_eq_map, canonL_eq_map]
      have h1 : (List.insertionSort fsLE (cs.map canonFS)).Perm (cs.map canonFS) :=
        List.perm_insertionSort fsLE (cs.map canonFS)
      refine (h1.map _).trans ?_
      rw [List.map_map]
      refine List.Perm.of_eq (List.map_congr_left ?_)
      intro c hc
      show buildEntry sel (canonFS c) (joinPath p (canonFS c).fname)
        = buildEntry sel c (joinPath p c.fname)
      rw [canonFS_fname]
      exact hmapeq c hc
    have hnames : ((buildChildren sel cs p).map TNode.name).Nodup := by
      rw [hL₁, List.map_map]
      have : (fun c => (buildEntry sel c (joinPath p c.fname)).name) = FSEntry.fname := by
        funext c
        exact buildEntry_name sel c (joinPath p c.fname)
      simp only [Function.comp_def, this]
      exact hok.1
    have hsorteq : List.insertionSort childLE (buildChildren sel cs p)
        = List.insertionSort childLE
            (buildChildren sel (List.insertionSort fsLE (canonL cs)) p) := by
      refine insertionSort_childLE_eq_of_perm ?_ hnames
      exact (List.Perm.of_eq hL₁).trans hL₂perm.symm
    show buildEntry sel (.dir n cs) p
      = buildEntry sel (.dir n (List.insertionSort fsLE (canonL cs))) p
    rw [buildEntry_dir_eq, buildEntry_dir_eq, hsorteq]

theorem buildEntry_children_sorted (sel : List Str) (fs : FSEntry) :
    ∀ (p : Str), ∀ d ∈ subNodes (buildEntry sel fs p),
      List.Pairwise childLE d.childrenL := by
  induction fs using fsEntryIndOn with
  | hf n =>
    intro p d hd
    simp only [buildEntry, subNodes, List.mem_singleton] at hd
    subst hd
    simp [TNode.childrenL]
  | hd n cs ih =>
    intro p d hd
    rw [buildEntry_dir_eq, subNodes] at hd
    rcases List.mem_cons.mp hd with hd | hd
    · subst hd
      exact List.sorted_insertionSort childLE (buildChildren sel cs p)
    · rcases mem_subNodesL.mp hd with ⟨c, hc, hdc⟩
      rw [List.mem_insertionSort, buildChildren_eq_map, List.mem_map] at hc
      rcases hc with ⟨entry, hentry, rfl⟩
      exact ih entry hentry (joinPath p entry.fname) d hdc

/-- C5: every directory of the built mirror has its children sequence
pairwise ordered by `childLE` (directories strictly before files, and
names in case-sensitive lexicographic order inside each group), and the
built tree does not depend on the enumeration order of the filesystem
listing: two snapshots with the same canonical form (same names and
shapes, children listed in any order) and `os.listdir`-style distinct
names build identical trees. -/
theorem mirror_sort_deterministic (sel : List Str) (fs : FSEntry) (p : Str) :
    (∀ d ∈ subNodes (buildEntry sel fs p), List.Pairwise childLE d.childrenL)
    ∧ (∀ fs₂ : FSEntry, namesOKB fs = true → namesOKB fs₂ = true →
        canonFS fs = canonFS fs₂ → buildEntry sel fs p = buildEntry sel fs₂ p) := by
  refine ⟨buildEntry_children_sorted sel fs p, fun fs₂ h1 h2 hc => ?_⟩
  rw [buildEntry_canon sel fs h1 p, hc, ← buildEntry_canon sel fs₂ h2 p]

/-- Witness for C5: the same two file names enumerated in either order
build the same mirror. -/
theorem mirror_sort_deterministic_witness :
    buildEntry [] (.dir (toL "r") [.file (toL "b"), .file (toL "a")]) []
      = buildEntry [] (.dir (toL "r") [.file (toL "a"), .file (toL "b")]) [] :=
  (mirror_sort_deterministic []
      (.dir (toL "r") [.file (toL "b"), .file (toL "a")]) []).2
    (.dir (toL "r") [.file (toL "a"), .file (toL "b")])
    (by decide) (by decide) (by decide)

-- ------------------- visibility toolkit for C6 / C8 ---------------------

/-- `q` lies strictly below `pos` in the tree (a proper extension of the
position). -/
def strictUnder (pos q : List Nat) : Bool :=
  pos.isPrefixOf q && decide (pos ≠ q)

theorem strictUnder_self (pos : List Nat) : strictUnder pos pos = false := by
  simp [strictUnder]

theorem strictUnder_nil_left (q : List Nat) (hq : q ≠ []) :
    strictUnder [] q = true := by
  simp [strictUnder, List.isPrefixOf, hq]

theorem strictUnder_cons (k : Nat) (a b : List Nat) :
    strictUnder (k :: a) (k :: b) = strictUnder a b := by
  simp [strictUnder, List.isPrefixOf]

theorem strictUnder_diff_head {m k : Nat} (h : m ≠ k) (r q : List Nat) :
    strictUnder (m :: r) (k :: q) = false := by
  simp [strictUnder, List.isPrefixOf, h]

theorem strictUnder_cons_nil (m : Nat) (r : List Nat) :
    strictUnder (m :: r) [] = false := by
  simp [strictUnder, List.isPrefixOf]

theorem visR_head (t : TNode) : visR t = [] :: (visR t).drop 1 := by
  cases t <;> rfl

theorem visR_eq_cons_visOf (t : TNode) : visR t = [] :: visOf t :=
  visR_head t

theorem mem_visRC_head {q : List Nat} {cs : List TNode} {k : Nat}
    (h : q ∈ visRC cs k) : ∃ m r, q = m :: r ∧ k ≤ m := by
  induction cs generalizing k with
  | nil => cases h
  | cons c cs ih =>
    rw [visRC] at h
    rcases List.mem_append.mp h with h | h
    · rcases List.mem_map.mp h with ⟨r, _, rfl⟩
      exact ⟨k, r, rfl, le_refl k⟩
    · rcases ih h with ⟨m, r, rfl, hm⟩
      exact ⟨m, r, rfl, by omega⟩

theorem mem_visRC_iff {q : List Nat} {cs : List TNode} {k : Nat} :
    q ∈ visRC cs k ↔ ∃ j, ∃ hj : j < cs.length, ∃ r,
      q = (k + j) :: r ∧ r ∈ visR cs[j] := by
  induction cs generalizing k with
  | nil => simp [visRC]
  | cons c cs ih =>
    rw [visRC]
    constructor
    · intro h
      rcases List.mem_append.mp h with h | h
      · rcases List.mem_map.mp h with ⟨r, hr, rfl⟩
        exact ⟨0, by simp, r, by simp, by simpa using hr⟩
      · rcases ih.mp h with ⟨j, hj, r, rfl, hr⟩
        refine ⟨j + 1, by simpa using hj, r, by congr 1; omega, by simpa using hr⟩
    · rintro ⟨j, hj, r, rfl, hr⟩
      cases j with
      | zero =>
        refine List.mem_append.mpr (Or.inl ?_)
        simp only [Nat.add_zero]
        exact List.mem_map.mpr ⟨r, by simpa using hr, rfl⟩
      | succ j =>
        refine List.mem_append.mpr (Or.inr ?_)
        refine ih.mpr ⟨j, by simpa using hj, r, by congr 1; omega, ?_⟩
        simpa using hr

theorem mem_visOf_ne_nil {q : List Nat} {t : TNode} (h : q ∈ visOf t) :
    q ≠ [] := by
  cases t with
  | file n p s => cases h
  | dir n p s e cs =>
    rcases e with _ | _
    · cases h
    · rcases mem_visRC_head (by simpa [visOf, visR] using h) with ⟨m, r, rfl, _⟩
      simp

theorem mem_visOf_mem_visR {q : List Nat} {t : TNode} (h : q ∈ visOf t) :
    q ∈ visR t :=
  List.mem_of_mem_drop h

theorem mem_visR_of_ne_nil {q : List Nat} {t : TNode} (h : q ∈ visR t)
    (hne : q ≠ []) : q ∈ visOf t := by
  rw [visR_eq_cons_visOf] at h
  rcases List.mem_cons.mp h with h | h
  · exact absurd h.symm (by simpa using hne)
  · exact h

theorem visR_dropLast {t : TNode} :
    ∀ pos, pos ∈ visR t → pos ≠ [] → pos.dropLast ∈ visR t := by
  induction t using TNode.indOn with
  | hf n p s =>
    intro pos hpos hne
    simp only [visR, List.mem_singleton] at hpos
    exact absurd hpos hne
  | hd n p s e cs ih =>
    intro pos hpos hne
    rw [visR] at hpos
    rcases List.mem_cons.mp hpos with h | h
    · exact absurd h hne
    · rcases e with _ | _
      · cases h
      · simp only [if_true] at h
        rcases mem_visRC_iff.mp h with ⟨j, hj, r, rfl, hr⟩
        rcases eq_or_ne r [] with rfl | hrne
        · rw [List.dropLast_single]
          rw [visR]
          exact List.mem_cons_self _ _
        · have hdl : ((0 + j) :: r).dropLast = (0 + j) :: r.dropLast := by
            cases r with
            | nil => exact absurd rfl hrne
            | cons x xs => rfl
          rw [hdl, visR]
          refine List.mem_cons_of_mem _ ?_
          simp only [if_true]
          exact mem_visRC_iff.mpr
            ⟨j, hj, r.dropLast, rfl, ih cs[j] (List.getElem_mem hj) r hr hrne⟩

theorem nodeAt_isSome {t : TNode} :
    ∀ pos, pos ∈ visR t → ∃ nd, nodeAt t pos = some nd := by
  induction t using TNode.indOn with
  | hf n p s =>
    intro pos hpos
    simp only [visR, List.mem_singleton] at hpos
    subst hpos
    exact ⟨_, rfl⟩
  | hd n p s e cs ih =>
    intro pos hpos
    rw [visR] at hpos
    rcases List.mem_cons.mp hpos with rfl | h
    · exact ⟨_, rfl⟩
    · rcases e with _ | _
      · cases h
      · simp only [if_true] at h
        rcases mem_visRC_iff.mp h with ⟨j, hj, r, rfl, hr⟩
        rcases ih cs[j] (List.getElem_mem hj) r hr with ⟨nd, hnd⟩
        refine ⟨nd, ?_⟩
        rw [nodeAt]
        simp only [Nat.zero_add]
        rw [List.getElem?_eq_getElem hj]
        exact hnd

theorem modifyAtL_length (cs : List TNode) (i : Nat) (rest : List Nat)
    (f : TNode → TNode) : (modifyAtL cs i rest f).length = cs.length := by
  induction cs generalizing i with
  | nil => rfl
  | cons c cs ih =>
    cases i with
    | zero => rfl
    | succ i => simp [modifyAtL, ih]

theorem modifyAtL_getElem (cs : List TNode) (i : Nat) (rest : List Nat)
    (f : TNode → TNode) (j : Nat) :
    (modifyAtL cs i rest f)[j]? =
      if j = i then (cs[i]?).map (fun c => modifyAt c rest f) else cs[j]? := by
  induction cs generalizing i j with
  | nil => simp [modifyAtL]
  | cons c cs ih =>
    cases i with
    | zero =>
      cases j with
      | zero => simp [modifyAtL]
      | succ j => simp [modifyAtL]
    | succ i =>
      cases j with
      | zero => simp [modifyAtL]
      | succ j =>
        simp only [modifyAtL, List.getElem?_cons_succ]
        rw [ih]
        simp

theorem nodeAt_modifyAt {t : TNode} :
    ∀ (pos : List Nat) (f : TNode → TNode),
      nodeAt (modifyAt t pos f) pos = (nodeAt t pos).map f := by
  induction t using TNode.indOn with
  | hf n p s =>
    intro pos f
    cases pos with
    | nil => simp [modifyAt, nodeAt]
    | cons i rest => rfl
  | hd n p s e cs ih =>
    intro pos f
    cases pos with
    | nil => simp [modifyAt, nodeAt]
    | cons i rest =>
      show nodeAt (.dir n p s e (modifyAtL cs i rest f)) (i :: rest)
        = (nodeAt (.dir n p s e cs) (i :: rest)).map f
      rw [nodeAt, nodeAt, modifyAtL_getElem, if_pos rfl]
      cases hc : cs[i]? with
      | none => rfl
      | some c =>
        simp only [Option.map_some]
        exact ih c (List.getElem?_mem hc) rest f

mutual

theorem visR_invertN : ∀ (d : Option Bool) (t : TNode),
    visR (invertN d t) = visR t
  | _, .file _ _ _ => rfl
  | d, .dir n p s e cs => by
    rw [invertN_dir, visR, visR]
    rcases e with _ | _
    · rfl
    · simp only [if_true]
      rw [visRC_invertL (d.getD (!s)) cs 0]

theorem visRC_invertL : ∀ (v : Bool) (cs : List TNode) (k : Nat),
    visRC (invertL v cs) k = visRC cs k
  | _, [], _ => rfl
  | v, c :: cs, k => by
    show visRC (invertN (some v) c :: invertL v cs) k = _
    rw [visRC, visRC, visR_invertN (some v) c, visRC_invertL v cs (k + 1)]

end

mutual

theorem visR_modifyAt_inv : ∀ (t : TNode) (pos : List Nat) (f : TNode → TNode),
    (∀ u, visR (f u) = visR u) → visR (modifyAt t pos f) = visR t
  | t, [], f, hf => by cases t <;> exact hf _
  | .file _ _ _, _ :: _, _, _ => rfl
  | .dir n p s e cs, i :: rest, f, hf => by
    show visR (.dir n p s e (modifyAtL cs i rest f)) = _
    rw [visR, visR]
    rcases e with _ | _
    · rfl
    · simp only [if_true]
      rw [visRC_modifyAtL_inv cs i rest f hf 0]

theorem visRC_modifyAtL_inv :
    ∀ (cs : List TNode) (i : Nat) (rest : List Nat) (f : TNode → TNode),
      (∀ u, visR (f u) = visR u) → ∀ (k : Nat),
      visRC (modifyAtL cs i rest f) k = visRC cs k
  | [], _, _, _, _, _ => rfl
  | c :: cs, 0, rest, f, hf, k => by
    show visRC (modifyAt c rest f :: cs) k = _
    rw [visRC, visRC, visR_modifyAt_inv c rest f hf]
  | c :: cs, i + 1, rest, f, hf, k => by
    show visRC (c :: modifyAtL cs i rest f) k = _
    rw [visRC, visRC, visRC_modifyAtL_inv cs i rest f hf (k + 1)]

end

mutual

theorem visR_setTrue_sublist : ∀ (t : TNode) (pos : List Nat),
    (visR t).Sublist (visR (modifyAt t pos (setExpFlag true)))
  | .file _ _ _, [] => List.Sublist.refl _
  | .dir n p s e cs, [] => by
    show (visR (.dir n p s e cs)).Sublist (visR (.dir n p s true cs))
    rw [visR, visR]
    rcases e with _ | _
    · simp only [if_neg Bool.false_ne_true, if_true]
      exact (List.nil_sublist _).cons₂ _
    · exact List.Sublist.refl _
  | .file _ _ _, _ :: _ => List.Sublist.refl _
  | .dir n p s e cs, i :: rest => by
    show (visR (.dir n p s e cs)).Sublist
      (visR (.dir n p s e (modifyAtL cs i rest (setExpFlag true))))
    rw [visR, visR]
    rcases e with _ | _
    · exact List.Sublist.refl _
    · simp only [if_true]
      exact (visRC_setTrue_sublist cs i rest 0).cons₂ _

theorem visRC_setTrue_sublist : ∀ (cs : List TNode) (i : Nat) (rest : List Nat)
    (k : Nat),
    (visRC cs k).Sublist (visRC (modifyAtL cs i rest (setExpFlag true)) k)
  | [], _, _, _ => List.Sublist.refl _
  | c :: cs, 0, rest, k => by
    show (visRC (c :: cs) k).Sublist
      (visRC (modifyAt c rest (setExpFlag true) :: cs) k)
    rw [visRC, visRC]
    exact List.Sublist.append
      ((visR_setTrue_sublist c rest).map _) (List.Sublist.refl _)
  | c :: cs, i + 1, rest, k => by
    show (visRC (c :: cs) k).Sublist
      (visRC (c :: modifyAtL cs i rest (setExpFlag true)) k)
    rw [visRC, visRC]
    exact List.Sublist.append (List.Sublist.refl _)
      (visRC_setTrue_sublist cs i rest (k + 1))

end

mutual

theorem visR_setFalse_filter : ∀ (t : TNode) (pos : List Nat), pos ∈ visR t →
    visR (modifyAt t pos (setExpFlag false))
      = (visR t).filter (fun q => !(strictUnder pos q))
  | .file n p s, [], _ => by
    simp [modifyAt, setExpFlag, visR, strictUnder_self]
  | .dir n p s e cs, [], _ => by
    show visR (.dir n p s false cs) = _
    rw [visR, visR]
    rcases e with _ | _
    · simp [strictUnder_self]
    · simp only [if_true, if_neg Bool.false_ne_true, List.filter_cons,
        strictUnder_self, Bool.not_false, if_true]
      have hnil : (visRC cs 0).filter (fun q => !(strictUnder [] q)) = [] := by
        refine List.filter_eq_nil_iff.mpr ?_
        intro q hq
        rcases mem_visRC_head hq with ⟨m, r, rfl, _⟩
        simp [strictUnder_nil_left]
      rw [hnil]
  | .file n p s, i :: rest, hpos => by
    simp only [visR, List.mem_singleton] at hpos
    cases hpos
  | .dir n p s e cs, i :: rest, hpos => by
    rw [visR] at hpos
    rcases List.mem_cons.mp hpos with h | h
    · cases h
    · rcases e with _ | _
      · cases h
      · simp only [if_true] at h
        rcases mem_visRC_iff.mp h with ⟨j, hj, r, heq, hr⟩
        have hhead : i = 0 + j := List.head_eq_of_cons_eq heq
        have hi : j = i := by omega
        have hrr : rest = r := List.tail_eq_of_cons_eq heq
        subst hi
        subst hrr
        show visR (.dir n p s true (modifyAtL cs j rest (setExpFlag false))) = _
        rw [visR, visR]
        simp only [if_true, List.filter_cons, strictUnder_cons_nil,
          Bool.not_false]
        have hmain := visRC_setFalse_filter cs j rest 0 hj hr
        simp only [Nat.zero_add] at hmain
        rw [hmain]

theorem visRC_setFalse_filter :
    ∀ (cs : List TNode) (j : Nat) (rest : List Nat) (k : Nat)
      (hj : j < cs.length), rest ∈ visR cs[j] →
      visRC (modifyAtL cs j rest (setExpFlag false)) k
        = (visRC cs k).filter (fun q => !(strictUnder ((k + j) :: rest) q))
  | [], j, rest, k, hj, _ => by cases hj
  | c :: cs, 0, rest, k, hj, hrest => by
    have hrc : rest ∈ visR c := by simpa using hrest
    show visRC (modifyAt c rest (setExpFlag false) :: cs) k = _
    rw [visRC, visRC, List.filter_append]
    congr 1
    · rw [visR_setFalse_filter c rest hrc, List.filter_map]
      congr 1
      refine List.filter_congr ?_
      intro q _
      simp only [Function.comp_apply, Nat.add_zero, strictUnder_cons]
    · refine (List.filter_eq_self.mpr ?_).symm
      intro q hq
      rcases mem_visRC_head hq with ⟨m, r, rfl, hm⟩
      have hne : k + 0 ≠ m := by omega
      rw [strictUnder_diff_head hne]
      rfl
  | c :: cs, j + 1, rest, k, hj, hrest => by
    have hj' : j < cs.length := by simpa using hj
    have hrc : rest ∈ visR cs[j] := by simpa using hrest
    show visRC (c :: modifyAtL cs j rest (setExpFlag false)) k = _
    rw [visRC, visRC, List.filter_append]
    congr 1
    · refine (List.filter_eq_self.mpr ?_).symm
      intro q hq
      rcases List.mem_map.mp hq with ⟨r, _, rfl⟩
      have hne : k + (j + 1) ≠ k := by omega
      rw [strictUnder_diff_head hne]
      rfl
    · have hmain := visRC_setFalse_filter cs j rest (k + 1) hj' hrc
      rw [hmain]
      refine List.filter_congr ?_
      intro q _
      have harith : k + 1 + j = k + (j + 1) := by omega
      rw [harith]

end

mutual

theorem visR_pairwise : ∀ t : TNode,
    (visR t).Pairwise (fun a b => strictUnder b a = false)
  | .file _ _ _ => by simp [visR]
  | .dir n p s e cs => by
    rw [visR]
    refine List.pairwise_cons.mpr ⟨?_, ?_⟩
    · intro b hb
      rcases e with _ | _
      · cases hb
      · simp only [if_true] at hb
        rcases mem_visRC_head hb with ⟨m, r, rfl, _⟩
        exact strictUnder_cons_nil m r
    · rcases e with _ | _
      · exact List.Pairwise.nil
      · simp only [if_true]
        exact visRC_pairwise cs 0

theorem visRC_pairwise : ∀ (cs : List TNode) (k : Nat),
    (visRC cs k).Pairwise (fun a b => strictUnder b a = false)
  | [], _ => List.Pairwise.nil
  | c :: cs, k => by
    rw [visRC]
    refine List.pairwise_append.mpr ⟨?_, visRC_pairwise cs (k + 1), ?_⟩
    · refine List.pairwise_map.mpr ?_
      refine (visR_pairwise c).imp ?_
      intro a b hab
      rw [strictUnder_cons]
      exact hab
    · intro a ha b hb
      rcases List.mem_map.mp ha with ⟨r', _, rfl⟩
      rcases mem_visRC_head hb with ⟨m, r, rfl, hm⟩
      have hne : m ≠ k := by omega
      exact strictUnder_diff_head hne r r'

end

theorem filter_keep_upto {α : Type} (l : List α) (P : α → Bool) (k : Nat)
    (hk : k < l.length)
    (hup : ∀ j (hj : j < l.length), j ≤ k → P l[j] = true) :
    k < (l.filter P).length ∧ (l.filter P)[k]? = some l[k] := by
  have htakelen : (l.take (k + 1)).length = k + 1 := by
    rw [List.length_take]
    omega
  have htake : (l.take (k + 1)).filter P = l.take (k + 1) := by
    refine List.filter_eq_self.mpr ?_
    intro a ha
    rcases List.mem_iff_getElem?.mp ha with ⟨j, hja⟩
    rw [List.getElem?_take] at hja
    by_cases hjk : j < k + 1
    · rw [if_pos hjk] at hja
      have hjl : j < l.length := by
        rcases List.getElem?_eq_some.mp hja with ⟨h, _⟩
        exact h
      have : l[j] = a := by
        rcases List.getElem?_eq_some.mp hja with ⟨h, ha'⟩
        exact ha'
      rw [← this]
      exact hup j hjl (by omega)
    · rw [if_neg hjk] at hja
      cases hja
  have hsplit : l.filter P = l.take (k + 1) ++ (l.drop (k + 1)).filter P := by
    conv_lhs => rw [← List.take_append_drop (k + 1) l]
    rw [List.filter_append, htake]
  constructor
  · rw [hsplit, List.length_append, htakelen]
    omega
  · rw [hsplit, List.getElem?_append, htakelen,
      if_pos (show k < k + 1 by omega), List.getElem?_take,
      if_pos (show k < k + 1 by omega)]
    exact List.getElem?_eq_getElem hk

theorem findIdxOf_spec {α : Type} [DecidableEq α] (l : List α) (a : α)
    (ha : a ∈ l) :
    ∃ k, findIdxOf l a = some k ∧ k < l.length ∧ l[k]? = some a := by
  induction l with
  | nil => cases ha
  | cons x xs ih =>
    by_cases hxa : x = a
    · exact ⟨0, by simp [findIdxOf, hxa], by simp, by simp [hxa]⟩
    · have hmem : a ∈ xs := by
        rcases List.mem_cons.mp ha with h | h
        · exact absurd h.symm hxa
        · exact h
      rcases ih hmem with ⟨k, h1, h2, h3⟩
      exact ⟨k + 1, by simp [findIdxOf, hxa, h1], by simp; omega, by simpa using h3⟩

theorem visOf_invert (t : TNode) (pos : List Nat) :
    visOf (modifyAt t pos (invertN none)) = visOf t := by
  unfold visOf
  rw [visR_modifyAt_inv t pos _ (visR_invertN none)]

theorem visOf_setTrue_length (t : TNode) (pos : List Nat) :
    (visOf t).length ≤ (visOf (modifyAt t pos (setExpFlag true))).length := by
  unfold visOf
  have := (visR_setTrue_sublist t pos).length_le
  simp only [List.length_drop]
  omega

theorem visOf_setFalse (t : TNode) (pos : List Nat) (hpos : pos ∈ visOf t) :
    visOf (modifyAt t pos (setExpFlag false))
      = (visOf t).filter (fun q => !(strictUnder pos q)) := by
  have hne : pos ≠ [] := mem_visOf_ne_nil hpos
  have hfil := visR_setFalse_filter t pos (mem_visOf_mem_visR hpos)
  rw [visR_eq_cons_visOf t, visR_eq_cons_visOf (modifyAt t pos (setExpFlag false))]
    at hfil
  rcases pos with _ | ⟨m, r⟩
  · exact absurd rfl hne
  · rw [List.filter_cons, strictUnder_cons_nil, Bool.not_false, if_pos rfl] at hfil
    exact List.tail_eq_of_cons_eq hfil

theorem visOf_pairwise (t : TNode) :
    (visOf t).Pairwise (fun a b => strictUnder b a = false) := by
  have := visR_pairwise t
  rw [visR_eq_cons_visOf t] at this
  exact this.of_cons

/-- The root object the interactive loop works on keeps its identity: a
position update below the root leaves the root's own fields alone. -/
theorem modifyAt_root_dir (n p : Str) (s e : Bool) (cs : List TNode)
    (i : Nat) (rest : List Nat) (f : TNode → TNode) :
    modifyAt (.dir n p s e cs) (i :: rest) f
      = .dir n p s e (modifyAtL cs i rest f) := rfl

theorem visOf_dir_true (n p : Str) (s : Bool) (cs : List TNode) :
    visOf (.dir n p s true cs) = visRC cs 0 := rfl

theorem visRC_ne_nil {cs : List TNode} (h : cs ≠ []) (k : Nat) :
    visRC cs k ≠ [] := by
  cases cs with
  | nil => exact absurd rfl h
  | cons c cs =>
    rw [visRC, visR_head c]
    simp

theorem collapse_keeps_cursor {t : TNode} {pos : List Nat} {k : Nat}
    (hk : k < (visOf t).length)
    (hkpos : (visOf t)[k]? = some pos) :
    k < (visOf (modifyAt t pos (setExpFlag false))).length
    ∧ (visOf (modifyAt t pos (setExpFlag false)))[k]? = some pos := by
  have hkeq : (visOf t)[k] = pos := by
    rcases List.getElem?_eq_some.mp hkpos with ⟨_, h⟩
    exact h
  have hpos : pos ∈ visOf t := by
    rw [← hkeq]
    exact List.getElem_mem hk
  rw [visOf_setFalse t pos hpos]
  have hpw := visOf_pairwise t
  have hup : ∀ j (hj : j < (visOf t).length), j ≤ k →
      (!(strictUnder pos (visOf t)[j])) = true := by
    intro j hj hjk
    rcases Nat.lt_or_ge j k with hjlt | hjge
    · have := List.pairwise_iff_getElem.mp hpw j k hj hk hjlt
      rw [hkeq] at this
      simp [this]
    · have hjeq : j = k := by omega
      subst hjeq
      rw [hkeq]
      simp [strictUnder_self]
  have hmain := filter_keep_upto (visOf t) (fun q => !(strictUnder pos q)) k hk hup
  rw [hkeq] at hmain
  exact hmain

/-- The interactive loop's invariant: the tree is still the expanded,
non-childless root directory the loop started from, and the cursor indexes
the visible list. -/
def RootInv (st : UIState) : Prop :=
  (∃ n p s cs, st.tree = .dir n p s true cs ∧ cs ≠ [])
  ∧ st.ci < (visOf st.tree).length

theorem rootShape_modifyAt {n p : Str} {s : Bool} {cs : List TNode}
    (t : TNode) (htree : t = .dir n p s true cs) (hcs : cs ≠ [])
    (pos : List Nat) (hpos : pos ≠ []) (f : TNode → TNode) :
    ∃ cs', modifyAt t pos f = .dir n p s true cs' ∧ cs' ≠ [] := by
  subst htree
  rcases pos with _ | ⟨m, r⟩
  · exact absurd rfl hpos
  · refine ⟨modifyAtL cs m r f, rfl, ?_⟩
    intro hnil
    apply hcs
    have hlen := modifyAtL_length cs m r f
    rw [hnil] at hlen
    exact List.length_eq_zero.mp hlen.symm

theorem step_up_eq (h : Nat) (st : UIState) :
    step h .up st = if st.ci > 0
      then some ⟨st.tree, st.ci - 1, max 0 (min st.wp (st.ci - 1 - 3))⟩
      else some st := rfl

theorem step_down_eq (h : Nat) (st : UIState) :
    step h .down st = if st.ci < (visOf st.tree).length - 1
      then some ⟨st.tree, st.ci + 1, max 0 (max st.wp (st.ci + 1 + 5 - h))⟩
      else some st := rfl

theorem step_left_eq (h : Nat) (st : UIState) :
    step h .left st =
      match (visOf st.tree)[st.ci]? with
      | none => none
      | some pos =>
        match nodeAt st.tree pos with
        | none => none
        | some node =>
          if node.isDir && node.expandedD then
            some ⟨modifyAt st.tree pos (setExpFlag false), st.ci, st.wp⟩
          else if 2 ≤ pos.length then
            some ⟨modifyAt st.tree pos.dropLast (setExpFlag false),
                  (findIdxOf (visOf st.tree) pos.dropLast).getD 0, st.wp⟩
          else some st := rfl

theorem step_right_eq (h : Nat) (st : UIState) :
    step h .right st =
      match (visOf st.tree)[st.ci]? with
      | none => none
      | some pos =>
        match nodeAt st.tree pos with
        | none => none
        | some node =>
          if node.isDir && !node.expandedD then
            some ⟨modifyAt st.tree pos (setExpFlag true), st.ci, st.wp⟩
          else some st := rfl

theorem step_toggle_eq (h : Nat) (st : UIState) :
    step h .toggle st =
      match (visOf st.tree)[st.ci]? with
      | none => none
      | some pos =>
        match nodeAt st.tree pos with
        | none => none
        | some _ => some ⟨modifyAt st.tree pos (invertN none), st.ci, st.wp⟩ := rfl

theorem rootInv_step (h : Nat) (e : Ev) (st : UIState) (hinv : RootInv st) :
    ∃ st', step h e st = some st' ∧ RootInv st' := by
  obtain ⟨⟨n, p, s, cs, htree, hcs⟩, hci⟩ := hinv
  cases e with
  | up =>
    by_cases hpos : st.ci > 0
    · refine ⟨⟨st.tree, st.ci - 1, max 0 (min st.wp (st.ci - 1 - 3))⟩, ?_, ?_, ?_⟩
      · rw [step_up_eq, if_pos hpos]
      · exact ⟨n, p, s, cs, htree, hcs⟩
      · show st.ci - 1 < (visOf st.tree).length
        omega
    · refine ⟨st, ?_, ⟨n, p, s, cs, htree, hcs⟩, hci⟩
      rw [step_up_eq, if_neg hpos]
  | down =>
    by_cases hpos : st.ci < (visOf st.tree).length - 1
    · refine ⟨⟨st.tree, st.ci + 1, max 0 (max st.wp (st.ci + 1 + 5 - h))⟩, ?_, ?_, ?_⟩
      · rw [step_down_eq, if_pos hpos]
      · exact ⟨n, p, s, cs, htree, hcs⟩
      · show st.ci + 1 < (visOf st.tree).length
        omega
    · refine ⟨st, ?_, ⟨n, p, s, cs, htree, hcs⟩, hci⟩
      rw [step_down_eq, if_neg hpos]
  | toggle =>
    obtain ⟨pos, hpos?⟩ : ∃ q, (visOf st.tree)[st.ci]? = some q :=
      ⟨_, List.getElem?_eq_getElem hci⟩
    have hmem : pos ∈ visOf st.tree := List.getElem?_mem hpos?
    obtain ⟨node, hnode⟩ := nodeAt_isSome _ (mem_visOf_mem_visR hmem)
    have hstep : step h .toggle st
        = some ⟨modifyAt st.tree pos (invertN none), st.ci, st.wp⟩ := by
      simp only [step_toggle_eq, hpos?, hnode]
    obtain ⟨cs', hcs', hne'⟩ := rootShape_modifyAt st.tree htree hcs _
      (mem_visOf_ne_nil hmem) (invertN none)
    refine ⟨_, hstep, ⟨n, p, s, cs', hcs', hne'⟩, ?_⟩
    show st.ci < (visOf (modifyAt st.tree pos (invertN none))).length
    rw [visOf_invert]
    exact hci
  | right =>
    obtain ⟨pos, hpos?⟩ : ∃ q, (visOf st.tree)[st.ci]? = some q :=
      ⟨_, List.getElem?_eq_getElem hci⟩
    have hmem : pos ∈ visOf st.tree := List.getElem?_mem hpos?
    obtain ⟨node, hnode⟩ := nodeAt_isSome _ (mem_visOf_mem_visR hmem)
    by_cases hcond : (node.isDir && !node.expandedD) = true
    · have hstep : step h .right st
          = some ⟨modifyAt st.tree pos (setExpFlag true), st.ci, st.wp⟩ := by
        simp only [step_right_eq, hpos?, hnode, hcond, if_true]
      obtain ⟨cs', hcs', hne'⟩ := rootShape_modifyAt st.tree htree hcs _
        (mem_visOf_ne_nil hmem) (setExpFlag true)
      refine ⟨_, hstep, ⟨n, p, s, cs', hcs', hne'⟩, ?_⟩
      show st.ci < (visOf (modifyAt st.tree pos (setExpFlag true))).length
      exact lt_of_lt_of_le hci (visOf_setTrue_length st.tree pos)
    · have hstep : step h .right st = some st := by
        simp only [step_right_eq, hpos?, hnode, if_neg hcond]
      exact ⟨st, hstep, ⟨n, p, s, cs, htree, hcs⟩, hci⟩
  | left =>
    obtain ⟨pos, hpos?⟩ : ∃ q, (visOf st.tree)[st.ci]? = some q :=
      ⟨_, List.getElem?_eq_getElem hci⟩
    have hmem : pos ∈ visOf st.tree := List.getElem?_mem hpos?
    obtain ⟨node, hnode⟩ := nodeAt_isSome _ (mem_visOf_mem_visR hmem)
    by_cases hcond : (node.isDir && node.expandedD) = true
    · have hstep : step h .left st
          = some ⟨modifyAt st.tree pos (setExpFlag false), st.ci, st.wp⟩ := by
        simp only [step_left_eq, hpos?, hnode, hcond, if_true]
      obtain ⟨cs', hcs', hne'⟩ := rootShape_modifyAt st.tree htree hcs _
        (mem_visOf_ne_nil hmem) (setExpFlag false)
      have hkeep := collapse_keeps_cursor hci hpos?
      exact ⟨_, hstep, ⟨n, p, s, cs', hcs', hne'⟩, hkeep.1⟩
    · by_cases hlen : 2 ≤ pos.length
      · have hpne : pos.dropLast ≠ [] := by
          intro hnil
          have hlval := congrArg List.length hnil
          rw [List.length_dropLast] at hlval
          simp at hlval
          omega
        have hpvisR : pos.dropLast ∈ visR st.tree :=
          visR_dropLast _ (mem_visOf_mem_visR hmem) (mem_visOf_ne_nil hmem)
        have hpvis : pos.dropLast ∈ visOf st.tree :=
          mem_visR_of_ne_nil hpvisR hpne
        obtain ⟨k, hk1, hk2, hk3⟩ := findIdxOf_spec _ _ hpvis
        have hstep : step h .left st
            = some ⟨modifyAt st.tree pos.dropLast (setExpFlag false), k, st.wp⟩ := by
          simp only [step_left_eq, hpos?, hnode, if_neg hcond, if_pos hlen,
            hk1, Option.getD_some]
        obtain ⟨cs', hcs', hne'⟩ := rootShape_modifyAt st.tree htree hcs _
          hpne (setExpFlag false)
        have hkeep := collapse_keeps_cursor hk2 hk3
        exact ⟨_, hstep, ⟨n, p, s, cs', hcs', hne'⟩, hkeep.1⟩
      · have hstep : step h .left st = some st := by
          simp only [step_left_eq, hpos?, hnode, if_neg hcond, if_neg hlen]
        exact ⟨st, hstep, ⟨n, p, s, cs, htree, hcs⟩, hci⟩

theorem runLoop_inv : ∀ (evs : List (Ev × Nat)) (st : UIState), RootInv st →
    ∃ st', runLoop evs st = some st' ∧ RootInv st' := by
  intro evs
  induction evs with
  | nil => exact fun st hinv => ⟨st, rfl, hinv⟩
  | cons eh evs ih =>
    intro st hinv
    obtain ⟨st₁, hstep, hinv₁⟩ := rootInv_step eh.2 eh.1 st hinv
    obtain ⟨st', hrun, hinv'⟩ := ih st₁ hinv₁
    refine ⟨st', ?_, hinv'⟩
    show runLoop (eh :: evs) st = some st'
    rcases eh with ⟨e, hgt⟩
    rw [runLoop, hstep]
    exact hrun

theorem setExpFlag_false_expandedD (u : TNode) :
    (setExpFlag false u).expandedD = false := by
  cases u <;> rfl

/-- C8: starting the loop on an expanded root directory with at least one
child and cursor 0, every sequence of key events keeps the loop alive
(`IndexError`-free) with the cursor inside the visible list at each frame;
with a childless root the indexing handlers fault at once. -/
theorem cursor_in_bounds :
    (∀ (n p : Str) (s : Bool) (cs : List TNode), cs ≠ [] →
      ∀ evs : List (Ev × Nat),
        ∃ st' : UIState,
          runLoop evs ⟨.dir n p s true cs, 0, 0⟩ = some st'
          ∧ st'.ci < (visOf st'.tree).length)
    ∧ (∀ (n p : Str) (s : Bool) (h : Nat),
        step h .left ⟨.dir n p s true [], 0, 0⟩ = none
        ∧ step h .right ⟨.dir n p s true [], 0, 0⟩ = none
        ∧ step h .toggle ⟨.dir n p s true [], 0, 0⟩ = none) := by
  constructor
  · intro n p s cs hcs evs
    have hinit : RootInv ⟨.dir n p s true cs, 0, 0⟩ := by
      refine ⟨⟨n, p, s, cs, rfl, hcs⟩, ?_⟩
      show 0 < (visOf (.dir n p s true cs)).length
      rw [visOf_dir_true]
      exact List.length_pos.mpr (visRC_ne_nil hcs 0)
    obtain ⟨st', hrun, hinv'⟩ := runLoop_inv evs _ hinit
    exact ⟨st', hrun, hinv'.2⟩
  · intro n p s h
    exact ⟨rfl, rfl, rfl⟩

/-- Witness for C8: a three-event session over a one-file root terminates
with the cursor in bounds. -/
theorem cursor_in_bounds_witness :
    ∃ st' : UIState,
      runLoop [(.toggle, 20), (.down, 20), (.up, 20)]
          ⟨.dir (toL "r") [] false true [.file (toL "a") (toL "a") false], 0, 0⟩
        = some st'
      ∧ st'.ci < (visOf st'.tree).length :=
  cursor_in_bounds.1 (toL "r") [] false [.file (toL "a") (toL "a") false]
    (by decide) [(.toggle, 20), (.down, 20), (.up, 20)]

/-- C6: with the cursor on a `File` or a collapsed directory, the left
key collapses the parent (setting its `expanded` to `false`) and moves the
cursor to the parent's row of the visible list, except that a node sitting
directly under the hidden root leaves the state unchanged; and for any
in-bounds cursor the handler returns without faulting. -/
theorem collapse_on_leaf (h : Nat) (st : UIState) :
    (st.ci < (visOf st.tree).length → ∃ st', step h .left st = some st')
    ∧ (∀ (pos : List Nat) (node : TNode),
        (visOf st.tree)[st.ci]? = some pos →
        nodeAt st.tree pos = some node →
        (node.isDir = false ∨ node.expandedD = false) →
        (pos.length = 1 → step h .left st = some st)
        ∧ (2 ≤ pos.length →
            ∃ k, step h .left st
                = some ⟨modifyAt st.tree pos.dropLast (setExpFlag false), k, st.wp⟩
              ∧ (nodeAt (modifyAt st.tree pos.dropLast (setExpFlag false))
                    pos.dropLast).map TNode.expandedD = some false
              ∧ (visOf (modifyAt st.tree pos.dropLast (setExpFlag false)))[k]?
                  = some pos.dropLast)) := by
  constructor
  · intro hci
    obtain ⟨pos, hpos?⟩ : ∃ q, (visOf st.tree)[st.ci]? = some q :=
      ⟨_, List.getElem?_eq_getElem hci⟩
    have hmem : pos ∈ visOf st.tree := List.getElem?_mem hpos?
    obtain ⟨node, hnode⟩ := nodeAt_isSome _ (mem_visOf_mem_visR hmem)
    by_cases hcond : (node.isDir && node.expandedD) = true
    · exact ⟨⟨modifyAt st.tree pos (setExpFlag false), st.ci, st.wp⟩,
        by simp only [step_left_eq, hpos?, hnode, hcond, if_true]⟩
    · by_cases hlen : 2 ≤ pos.length
      · exact ⟨⟨modifyAt st.tree pos.dropLast (setExpFlag false),
            (findIdxOf (visOf st.tree) pos.dropLast).getD 0, st.wp⟩, by
          simp only [step_left_eq, hpos?, hnode, if_neg hcond, if_pos hlen]⟩
      · exact ⟨st, by
          simp only [step_left_eq, hpos?, hnode, if_neg hcond, if_neg hlen]⟩
  · intro pos node hpos? hnode hcase
    have hcond : ¬ ((node.isDir && node.expandedD) = true) := by
      rcases hcase with hd | he
      · simp [hd]
      · simp [he]
    have hmem : pos ∈ visOf st.tree := List.getElem?_mem hpos?
    constructor
    · intro hone
      have hlen : ¬ (2 ≤ pos.length) := by omega
      simp only [step_left_eq, hpos?, hnode, if_neg hcond, if_neg hlen]
    · intro hlen
      have hpne : pos.dropLast ≠ [] := by
        intro hnil
        have hlval := congrArg List.length hnil
        rw [List.length_dropLast] at hlval
        simp at hlval
        omega
      have hpvisR : pos.dropLast ∈ visR st.tree :=
        visR_dropLast _ (mem_visOf_mem_visR hmem) (mem_visOf_ne_nil hmem)
      have hpvis : pos.dropLast ∈ visOf st.tree :=
        mem_visR_of_ne_nil hpvisR hpne
      obtain ⟨k, hk1, hk2, hk3⟩ := findIdxOf_spec _ _ hpvis
      obtain ⟨u, hu⟩ := nodeAt_isSome _ hpvisR
      have hkeep := collapse_keeps_cursor hk2 hk3
      refine ⟨k, ?_, ?_, hkeep.2⟩
      · simp only [step_left_eq, hpos?, hnode, if_neg hcond, if_pos hlen, hk1,
          Option.getD_some]
      · rw [nodeAt_modifyAt, hu]
        simp [setExpFlag_false_expandedD]

/-- Witness for C6: with the cursor on the file `d/a`, the left key
collapses the parent directory `d` and relocates the cursor to its row. -/
theorem collapse_on_leaf_witness :
    ∃ k, step 20 .left
        ⟨.dir (toL "r") [] false true
          [.dir (toL "d") (toL "d") false true
            [.file (toL "a") (toL "d/a") false]], 1, 0⟩
        = some ⟨modifyAt
            (.dir (toL "r") [] false true
              [.dir (toL "d") (toL "d") false true
                [.file (toL "a") (toL "d/a") false]]) [0] (setExpFlag false),
            k, 0⟩
      ∧ (nodeAt (modifyAt
            (.dir (toL "r") [] false true
              [.dir (toL "d") (toL "d") false true
                [.file (toL "a") (toL "d/a") false]]) [0] (setExpFlag false))
            [0]).map TNode.expandedD = some false
      ∧ (visOf (modifyAt
            (.dir (toL "r") [] false true
              [.dir (toL "d") (toL "d") false true
                [.file (toL "a") (toL "d/a") false]]) [0] (setExpFlag false)))[k]?
          = some [0] :=
  ((collapse_on_leaf 20
      ⟨.dir (toL "r") [] false true
        [.dir (toL "d") (toL "d") false true
          [.file (toL "a") (toL "d/a") false]], 1, 0⟩).2
    [0, 0] (.file (toL "a") (toL "d/a") false)
    (by decide) (by decide) (Or.inl (by decide))).2 (by decide)
